import Mathlib

/-!
Verification of the recon-webapp job scheduler, safety gate, correlation
engine and frontend behaviours. Definitions in the `Frontend` namespace are
shallow embeddings of the TypeScript sources under src/frontend and the
unnamed page sources; definitions in the `Core` namespace model the backend
scheduler, safety gate and correlation engine, which are described by the
specification (the repository sources contain only their HTTP callers).
-/

namespace Frontend

/-- Outcome of an API call made through the shared client in api.ts: the
promise either resolves with a value (none models the undefined value
returned for 204 responses) or rejects with an Error message. -/
inductive ApiOutcome (α : Type) where
  | resolved : Option α → ApiOutcome α
  | rejected : String → ApiOutcome α
deriving DecidableEq

/-- Shallow embedding of the function request in src/frontend/src/api.ts.
The HTTP response is given by its ok flag, status code and body text;
jsonBody is the value the body parses to (the embedding models responses
whose body is valid JSON, which is how every caller in the repository uses
the client). The code throws new Error(text or an HTTP-status fallback when
text is empty) on not-ok, returns undefined for 204, and otherwise the
parsed JSON body. -/
def request (α : Type) (ok : Bool) (status : Nat) (bodyText : String) (jsonBody : α) :
    ApiOutcome α :=
  if !ok then
    ApiOutcome.rejected (if bodyText = "" then "HTTP " ++ toString status else bodyText)
  else if status = 204 then
    ApiOutcome.resolved none
  else
    ApiOutcome.resolved (some jsonBody)

/-- Shallow embedding of the progress cell of the Jobs page (part_003 line
44): progress_pct non-null renders as the number followed by a percent
sign, null renders as the em-dash placeholder. -/
def progressCell {α : Type} [ToString α] (p : Option α) : String :=
  match p with
  | none => "—"
  | some v => toString v ++ "%"

/-- Cancel button visibility on the Jobs page (part_003 line 48). -/
def showsCancelButton (status : String) : Bool :=
  status = "running"

/-- Rerun button visibility on the Jobs page (part_003 lines 49 to 51). -/
def showsRerunButton (status : String) : Bool :=
  status = "succeeded" || status = "failed" || status = "canceled"

/-- The fixed welcome-line table of src/frontend/src/pages/Dashboard.tsx. -/
def WELCOME_LINES : List String :=
  [ "Wake up, Samurai. We\x27ve got a network to burn."
  , "The Blackwall doesn\x27t keep things out. It keeps things in."
  , "In Night City, information is the sharpest blade you can carry."
  , "Don\x27t fear the ICE. Fear what\x27s hiding behind it."
  , "Everything is connected. You just need to know where to look."
  , "A netrunner\x27s best weapon? Patience and a good daemon."
  , "Beyond the Blackwall, data doesn\x27t sleep — and neither should you."
  , "Night City\x27s dirtiest secrets live on port 443."
  , "Remember: the best intrusion is the one they never detect."
  , "Trust the process. Enumerate. Correlate. Dominate." ]

/-- Day index computed by getWelcomeMessage: Date.now() milliseconds since
the Unix epoch, floor-divided by 86400000 (one day), modulo the table
length. -/
def welcomeIndex (nowMs : Nat) : Nat :=
  nowMs / 86400000 % WELCOME_LINES.length

/-- Shallow embedding of getWelcomeMessage in Dashboard.tsx; the optional
result records whether the array index is in bounds (JavaScript would yield
undefined out of bounds). -/
def getWelcomeMessage (nowMs : Nat) : Option String :=
  WELCOME_LINES.get? (welcomeIndex nowMs)

/-- Two instants fall in the same UTC day exactly when their epoch
milliseconds have the same floor-quotient by 86400000. -/
def sameUtcDay (a b : Nat) : Prop :=
  a / 86400000 = b / 86400000

/-- Target rows of the wizard (part_003): a type tag and a value string. -/
structure Target where
  type : String
  value : String
deriving DecidableEq

/-- Embedding of the JavaScript String.prototype.trim call used by the
wizard: strip whitespace characters from both ends of the string. -/
def trimValue (s : String) : String :=
  String.mk (((s.data.dropWhile Char.isWhitespace).reverse.dropWhile Char.isWhitespace).reverse)

/-- Effect of the scope-preview handler: either an error message is shown
and no request is issued, or a POST to /api/scope/preview is issued with
the given target list. -/
inductive ScopePreviewAction where
  | errorShown : String → ScopePreviewAction
  | postPreview : List Target → ScopePreviewAction
deriving DecidableEq

/-- Shallow embedding of onScopePreview in the wizard (part_003 lines 89 to
100): targets whose value is blank after trimming are filtered out; if none
remain an error is shown and no request goes out, otherwise the filtered
list is posted. -/
def onScopePreview (targets : List Target) : ScopePreviewAction :=
  let valid := targets.filter (fun t => trimValue t.value ≠ "")
  if valid.length = 0 then
    ScopePreviewAction.errorShown "Add at least one target."
  else
    ScopePreviewAction.postPreview valid

/-- Body of the POST /api/jobs request issued by the wizard. -/
structure JobRequest where
  project_id : String
  module : String
  aggressiveness : Nat
  targets : List Target
  authorization_confirmed : Bool
deriving DecidableEq

/-- Effect of the run handler of the wizard: either an error message is
shown and no job request is issued, or (after a POST to /api/authorization)
a POST to /api/jobs is issued with the given body. -/
inductive RunJobAction where
  | blocked : String → RunJobAction
  | issueJob : JobRequest → RunJobAction
deriving DecidableEq

/-- Shallow embedding of runJob in the wizard (part_003 lines 102 to 118):
without the confirmation checkbox no request is issued; otherwise the job
request carries the selected project, module, aggressiveness, targets and
authorization_confirmed set to true. -/
def runJob (authorizationConfirmed : Bool) (selectedProjectId : String)
    (moduleName : String) (aggressiveness : Nat) (targets : List Target) : RunJobAction :=
  if !authorizationConfirmed then
    RunJobAction.blocked "Authorization must be confirmed."
  else
    RunJobAction.issueJob
      { project_id := selectedProjectId
      , module := moduleName
      , aggressiveness := aggressiveness
      , targets := targets
      , authorization_confirmed := true }

end Frontend

namespace Core

/-- Job status values of the specification state machine (section 4.2). -/
inductive Status where
  | queued
  | running
  | paused
  | succeeded
  | failed
  | canceled
  | awaiting_approval
deriving DecidableEq

/-- Modelled from the spec: the Job record of section 3 of the
specification, restricted to the fields the scheduler reads and writes
(the field list follows the Job interface of src/frontend/src/api.ts plus
the parameters field of the specification; timestamps are abstract Nat
instants). The backend that owns this record is not part of the repository
sources. -/
structure Job where
  id : String
  project_id : String
  module : String
  status : Status
  priority : Int
  aggressiveness : Nat
  is_external : Bool
  admin_approved_at : Option Nat
  created_at : Nat
  started_at : Option Nat
  finished_at : Option Nat
  exit_code : Option Int
  error_message : Option String
  parameters : List Frontend.Target
deriving DecidableEq

/-- Modelled from the spec: the scheduler registry, a job list plus the
configured concurrency limit C (default 2). -/
structure SchedState where
  jobs : List Job
  concurrency : Nat
deriving DecidableEq

/-- Number of jobs currently in the running status. -/
def runningCount (jobs : List Job) : Nat :=
  (jobs.filter (fun j => j.status = Status.running)).length

/-- Look up a job by id (first match, as in a registry keyed by id). -/
def findJob (jobs : List Job) (id : String) : Option Job :=
  jobs.find? (fun j => j.id = id)

/-- Update the status of the first job carrying the given id. -/
def setStatusById (jobs : List Job) (id : String) (st : Status) : List Job :=
  match jobs with
  | [] => []
  | j :: rest =>
      if j.id = id then { j with status := st } :: rest
      else j :: setStatusById rest id st

/-- Queue discipline of section 4.2: job a is strictly ahead of job b when
it has higher priority, or equal priority and an earlier creation time. -/
def aheadOf (a b : Job) : Bool :=
  b.priority < a.priority || (a.priority = b.priority && a.created_at < b.created_at)

/-- Modelled from the spec: select the next eligible job, the
queue-minimal job among those with status queued, ordered by priority
descending then created_at ascending. -/
def pickNext (jobs : List Job) : Option Job :=
  jobs.foldl
    (fun acc j =>
      if j.status = Status.queued then
        match acc with
        | none => some j
        | some m => if aheadOf j m then some j else some m
      else acc)
    none

/-- Modelled from the spec: the scheduler admits the next eligible queued
job into running only while fewer than C jobs are running; otherwise the
state is unchanged. -/
def admitNext (s : SchedState) : SchedState :=
  if runningCount s.jobs < s.concurrency then
    match pickNext s.jobs with
    | some j => { s with jobs := setStatusById s.jobs j.id Status.running }
    | none => s
  else s

/-- Result reported to the caller of a scheduler operation. -/
inductive OpResult where
  | ok
  | invalidTransition
  | notFound
deriving DecidableEq

/-- Modelled from the spec: a guarded status transition, compare-and-swap
style: applied only when the current status lies in the given source set,
otherwise InvalidTransition; unknown ids give notFound. -/
def transition (s : SchedState) (id : String) (srcs : List Status) (dst : Status) :
    SchedState × OpResult :=
  match findJob s.jobs id with
  | none => (s, OpResult.notFound)
  | some j =>
      if j.status ∈ srcs then
        ({ s with jobs := setStatusById s.jobs id dst }, OpResult.ok)
      else (s, OpResult.invalidTransition)

/-- Modelled from the spec: cancel is valid from queued, running or paused
and transitions to canceled; canceling a job already canceled or failed is
a no-op with no error (idempotence), while canceling an already-succeeded
job is rejected with InvalidTransition (section 8); a job held in
awaiting_approval is not in the valid source set either. -/
def cancelJob (s : SchedState) (id : String) : SchedState × OpResult :=
  match findJob s.jobs id with
  | none => (s, OpResult.notFound)
  | some j =>
      match j.status with
      | Status.queued => ({ s with jobs := setStatusById s.jobs id Status.canceled }, OpResult.ok)
      | Status.running => ({ s with jobs := setStatusById s.jobs id Status.canceled }, OpResult.ok)
      | Status.paused => ({ s with jobs := setStatusById s.jobs id Status.canceled }, OpResult.ok)
      | Status.canceled => (s, OpResult.ok)
      | Status.failed => (s, OpResult.ok)
      | Status.succeeded => (s, OpResult.invalidTransition)
      | Status.awaiting_approval => (s, OpResult.invalidTransition)

/-- Modelled from the spec: rerun is valid from any terminal state and
clones module, parameters and aggressiveness into a brand-new Job with a
fresh id and fresh timestamps, re-admitted through the Safety Gate; since
the clone carries no admin approval, gate check 3 holds an external clone
in awaiting_approval and any other clone enters queued. The original job
list entry is left untouched. -/
def rerunJob (s : SchedState) (id : String) (freshId : String) (now : Nat) :
    SchedState × OpResult :=
  match findJob s.jobs id with
  | none => (s, OpResult.notFound)
  | some j =>
      match j.status with
      | Status.succeeded | Status.failed | Status.canceled =>
          let newJob : Job :=
            { id := freshId
            , project_id := j.project_id
            , module := j.module
            , status :=
                if j.is_external then Status.awaiting_approval else Status.queued
            , priority := j.priority
            , aggressiveness := j.aggressiveness
            , is_external := j.is_external
            , admin_approved_at := none
            , created_at := now
            , started_at := none
            , finished_at := none
            , exit_code := none
            , error_message := none
            , parameters := j.parameters }
          ({ s with jobs := s.jobs ++ [newJob] }, OpResult.ok)
      | _ => (s, OpResult.invalidTransition)

/-- Modelled from the spec: a new admitted request enters the registry; per
gate check 3, an external job without admin approval is held in
awaiting_approval instead of queued; enqueue is a no-op when the id is
already present. -/
def enqueueJob (s : SchedState) (j : Job) : SchedState :=
  match findJob s.jobs j.id with
  | some _ => s
  | none =>
      let st :=
        if j.is_external && j.admin_approved_at = none then Status.awaiting_approval
        else Status.queued
      { s with jobs := s.jobs ++ [{ j with status := st }] }

/-- Scheduler operations, modelled from the spec (sections 4.2 and 6). -/
inductive SchedOp where
  | admitSlot
  | enqueue (j : Job)
  | pause (id : String)
  | resume (id : String)
  | cancel (id : String)
  | complete (id : String) (exitOk : Bool)
  | approve (id : String)
  | rerun (id : String) (freshId : String) (now : Nat)

/-- Apply one scheduler operation to the registry state. -/
def applyOp (s : SchedState) (op : SchedOp) : SchedState :=
  match op with
  | SchedOp.admitSlot => admitNext s
  | SchedOp.enqueue j => enqueueJob s j
  | SchedOp.pause id => (transition s id [Status.running] Status.paused).1
  | SchedOp.resume id => (transition s id [Status.paused] Status.queued).1
  | SchedOp.cancel id => (cancelJob s id).1
  | SchedOp.complete id exitOk =>
      (transition s id [Status.running] (if exitOk then Status.succeeded else Status.failed)).1
  | SchedOp.approve id => (transition s id [Status.awaiting_approval] Status.queued).1
  | SchedOp.rerun id freshId now => (rerunJob s id freshId now).1

/-- Apply a sequence of scheduler operations from left to right. -/
def applyOps (s : SchedState) (ops : List SchedOp) : SchedState :=
  ops.foldl applyOp s

/-- Initial registry: no jobs, configured concurrency C. -/
def initState (C : Nat) : SchedState :=
  { jobs := [], concurrency := C }

end Core

namespace Core

/-- Decision of the Safety Gate: a request is admitted or rejected with a
reason (section 4.1 of the specification). -/
inductive GateDecision where
  | admitted
  | rejected : String → GateDecision
deriving DecidableEq

/-- Modelled from the spec: the Safety Gate checks run in order and check 1
requires authorization_confirmed to be true, rejecting with
AuthorizationRequired otherwise; the later checks (noise score, external
approval hold, scope size) are abstracted by the rest argument, which is
consulted only after check 1 passes. The gate implementation is not part of
the repository sources. -/
def admitGate (req : Frontend.JobRequest)
    (rest : Frontend.JobRequest → GateDecision) : GateDecision :=
  if req.authorization_confirmed then rest req
  else GateDecision.rejected "AuthorizationRequired"

/-- Modelled from the spec: a normalized tool record as handed to the
Correlation Engine, identified for deduplication purposes by project,
module, finding type and normalized value. -/
structure NormalizedRecord where
  project_id : String
  module : String
  finding_type : String
  normalized_value : String
deriving DecidableEq

/-- Deduplication fingerprint: the quadruple that dedup_key is derived
from; two records with the same key are the same Finding. -/
structure DedupKey where
  project_id : String
  module : String
  finding_type : String
  normalized_value : String
deriving DecidableEq

/-- Compute the dedup_key fingerprint of a normalized record. -/
def dedupKey (r : NormalizedRecord) : DedupKey :=
  { project_id := r.project_id
  , module := r.module
  , finding_type := r.finding_type
  , normalized_value := r.normalized_value }

/-- Modelled from the spec: a Finding, restricted to the identity and
timestamp fields the deduplication claims are about. -/
structure Finding where
  dedup_key : DedupKey
  first_seen_at : Nat
  last_seen_at : Nat
deriving DecidableEq

/-- Modelled from the spec (section 4.5): ingest one normalized record at
instant now. If a Finding with the same dedup_key exists the engine
upserts, updating last_seen_at to now and leaving first_seen_at in place;
otherwise a new Finding is created with first_seen_at and last_seen_at both
set to now. -/
def ingest (fs : List Finding) (r : NormalizedRecord) (now : Nat) : List Finding :=
  if fs.any (fun f => f.dedup_key = dedupKey r) then
    fs.map (fun f =>
      if f.dedup_key = dedupKey r then { f with last_seen_at := now } else f)
  else
    fs ++ [{ dedup_key := dedupKey r, first_seen_at := now, last_seen_at := now }]

/-- Ingest a sequence of timestamped records from left to right; successive
ingestion instants are nondecreasing in any real run. -/
def ingestAll (fs : List Finding) (batch : List (NormalizedRecord × Nat)) : List Finding :=
  batch.foldl (fun a p => ingest a p.1 p.2) fs

/-- Number of Findings carrying a given dedup_key. -/
def countKey (fs : List Finding) (k : DedupKey) : Nat :=
  (fs.filter (fun f => f.dedup_key = k)).length

/-- The Finding carrying a given dedup_key (first match). -/
def getKey (fs : List Finding) (k : DedupKey) : Option Finding :=
  fs.find? (fun f => f.dedup_key = k)

end Core

namespace Core

/-- Serialization of a job status as the lowercase string the API exposes
and the frontend compares against (part_003 lines 48 to 51). -/
def statusStr : Status → String
  | Status.queued => "queued"
  | Status.running => "running"
  | Status.paused => "paused"
  | Status.succeeded => "succeeded"
  | Status.failed => "failed"
  | Status.canceled => "canceled"
  | Status.awaiting_approval => "awaiting_approval"

/-- Sample job used to instantiate theorems at concrete inputs. -/
def sampleJob (id : String) (st : Status) (priority : Int) (created : Nat) : Job :=
  { id := id
  , project_id := "p1"
  , module := "osint"
  , status := st
  , priority := priority
  , aggressiveness := 5
  , is_external := false
  , admin_approved_at := none
  , created_at := created
  , started_at := none
  , finished_at := none
  , exit_code := none
  , error_message := none
  , parameters := [] }

end Core

/-- Helper: a string ending in a percent sign is never the em-dash
placeholder. -/
theorem append_percent_ne_emdash (s : String) : s ++ "%" ≠ "—" := by
  intro h
  have hlen : (s ++ "%").length = ("—" : String).length := by rw [h]
  rw [String.length_append] at hlen
  have h1 : ("%" : String).length = 1 := by decide
  have h2 : ("—" : String).length = 1 := by decide
  rw [h1, h2] at hlen
  have hs : s.length = 0 := by omega
  have hempty : s = "" := by
    cases s with
    | mk data =>
        cases data with
        | nil => rfl
        | cons c cs => simp [String.length] at hs
  subst hempty
  exact absurd h (by decide)

/-- C7: for every Job whose progress_pct is null the Jobs page renders the
progress cell as the em-dash placeholder, never as a numeric percentage,
and a numeric percentage (the value followed by a percent sign) is rendered
exactly when progress_pct is non-null; in particular the placeholder is not
the string rendered for zero percent. -/
theorem progressCell_null_renders_placeholder {α : Type} [ToString α] :
    (∀ p : Option α, Frontend.progressCell p = "—" ↔ p = none) ∧
    (∀ v : α, Frontend.progressCell (some v) = toString v ++ "%") ∧
    ("—" : String) ≠ "0%" := by
  refine ⟨?_, ?_, by decide⟩
  · intro p
    cases p with
    | none => simp [Frontend.progressCell]
    | some v =>
        constructor
        · intro h
          exact absurd h (append_percent_ne_emdash (toString v))
        · intro h
          cases h
  · intro v
    rfl

/-- Witness for C7 at concrete inputs. -/
theorem progressCell_null_renders_placeholder_witness :
    Frontend.progressCell (none : Option Nat) = "—" ∧
    Frontend.progressCell (some (0 : Nat)) = "0%" := by
  constructor
  · exact (progressCell_null_renders_placeholder.1 (none : Option Nat)).mpr rfl
  · have h := (progressCell_null_renders_placeholder (α := Nat)).2.1 0
    rw [h]
    decide

/-- C8: the shared API client rejects with the response body text, or an
HTTP-status fallback when the body is empty, whenever the response is not
ok, and never resolves in that case; a 204 response resolves to undefined;
any other ok response resolves to the parsed JSON body. -/
theorem request_error_and_success_behaviour (α : Type) (ok : Bool) (status : Nat)
    (bodyText : String) (jsonBody : α) :
    (ok = false →
        Frontend.request α ok status bodyText jsonBody =
          Frontend.ApiOutcome.rejected
            (if bodyText = "" then "HTTP " ++ toString status else bodyText) ∧
        ∀ v : Option α,
          Frontend.request α ok status bodyText jsonBody ≠ Frontend.ApiOutcome.resolved v) ∧
    (ok = true → status = 204 →
        Frontend.request α ok status bodyText jsonBody = Frontend.ApiOutcome.resolved none) ∧
    (ok = true → status ≠ 204 →
        Frontend.request α ok status bodyText jsonBody =
          Frontend.ApiOutcome.resolved (some jsonBody)) := by
  refine ⟨?_, ?_, ?_⟩
  · intro h
    subst h
    exact ⟨rfl, by simp [Frontend.request]⟩
  · intro h h204
    subst h
    simp [Frontend.request, h204]
  · intro h h204
    subst h
    simp [Frontend.request, h204]

/-- Witness for C8 at concrete inputs. -/
theorem request_error_and_success_behaviour_witness :
    Frontend.request Nat false 500 "" 0 = Frontend.ApiOutcome.rejected "HTTP 500" ∧
    Frontend.request Nat true 204 "" 0 = Frontend.ApiOutcome.resolved none ∧
    Frontend.request Nat true 200 "body" 7 = Frontend.ApiOutcome.resolved (some 7) := by
  refine ⟨?_, ?_, ?_⟩
  · have h := ((request_error_and_success_behaviour Nat false 500 "" 0).1 rfl).1
    rw [h]
    decide
  · exact (request_error_and_success_behaviour Nat true 204 "" 0).2.1 rfl rfl
  · exact (request_error_and_success_behaviour Nat true 200 "body" 7).2.2 rfl (by decide)

/-- C9: the scope-preview handler of the wizard posts exactly the targets
whose value is non-blank after trimming; when every entered value is blank
no request is issued and the error message is shown instead. -/
theorem scopePreview_sends_exactly_nonblank (targets : List Frontend.Target) :
    ((∀ t ∈ targets, Frontend.trimValue t.value = "") →
        Frontend.onScopePreview targets =
          Frontend.ScopePreviewAction.errorShown "Add at least one target.") ∧
    ((∃ t ∈ targets, Frontend.trimValue t.value ≠ "") →
        ∃ sent,
          Frontend.onScopePreview targets = Frontend.ScopePreviewAction.postPreview sent ∧
          ∀ t, t ∈ sent ↔ t ∈ targets ∧ Frontend.trimValue t.value ≠ "") := by
  constructor
  · intro hall
    have hfil : targets.filter (fun t => Frontend.trimValue t.value ≠ "") = [] := by
      rw [List.filter_eq_nil_iff]
      intro a ha
      simp [hall a ha]
    simp [Frontend.onScopePreview, hfil]
    exact hall
  · rintro ⟨t, ht, htv⟩
    have hne : targets.filter (fun t => Frontend.trimValue t.value ≠ "") ≠ [] := by
      intro h0
      have := List.filter_eq_nil_iff.mp h0 t ht
      simp [htv] at this
    refine ⟨targets.filter (fun t => Frontend.trimValue t.value ≠ ""), ?_, ?_⟩
    · have hlen : (targets.filter (fun t => Frontend.trimValue t.value ≠ "")).length ≠ 0 := by
        simpa [List.length_eq_zero] using hne
      simp only [Frontend.onScopePreview, if_neg hlen]
    · intro x
      simp [List.mem_filter]

/-- Witness for C9 at concrete inputs. -/
theorem scopePreview_sends_exactly_nonblank_witness :
    Frontend.onScopePreview [{ type := "ip", value := " " }] =
      Frontend.ScopePreviewAction.errorShown "Add at least one target." ∧
    ∃ sent,
      Frontend.onScopePreview
          [{ type := "ip", value := " " }, { type := "fqdn", value := "example.com" }] =
        Frontend.ScopePreviewAction.postPreview sent ∧
      ∀ t, t ∈ sent ↔
        (t ∈ [({ type := "ip", value := " " } : Frontend.Target),
              { type := "fqdn", value := "example.com" }] ∧
          Frontend.trimValue t.value ≠ "") := by
  constructor
  · exact (scopePreview_sends_exactly_nonblank [{ type := "ip", value := " " }]).1
      (by decide)
  · exact (scopePreview_sends_exactly_nonblank
      [{ type := "ip", value := " " }, { type := "fqdn", value := "example.com" }]).2
      ⟨{ type := "fqdn", value := "example.com" }, by decide, by decide⟩

/-- C10: getWelcomeMessage always lands in bounds of the fixed ten-entry
welcome table and returns one of its lines, and two calls in the same UTC
day return the same line. -/
theorem welcomeMessage_in_bounds_and_daily_stable (nowMs n₁ n₂ : Nat) :
    (∃ s, Frontend.getWelcomeMessage nowMs = some s ∧ s ∈ Frontend.WELCOME_LINES) ∧
    Frontend.welcomeIndex nowMs < Frontend.WELCOME_LINES.length ∧
    (Frontend.sameUtcDay n₁ n₂ →
        Frontend.getWelcomeMessage n₁ = Frontend.getWelcomeMessage n₂) := by
  have hlt : ∀ m : Nat, Frontend.welcomeIndex m < Frontend.WELCOME_LINES.length := by
    intro m
    have hpos : 0 < Frontend.WELCOME_LINES.length := by decide
    exact Nat.mod_lt _ hpos
  refine ⟨?_, hlt nowMs, ?_⟩
  · exact ⟨Frontend.WELCOME_LINES.get ⟨Frontend.welcomeIndex nowMs, hlt nowMs⟩,
      List.get?_eq_get (hlt nowMs), List.get_mem _ _ _⟩
  · intro h
    have hdiv : n₁ / 86400000 = n₂ / 86400000 := h
    unfold Frontend.getWelcomeMessage Frontend.welcomeIndex
    rw [hdiv]

/-- Witness for C10 at concrete inputs. -/
theorem welcomeMessage_in_bounds_and_daily_stable_witness :
    (∃ s, Frontend.getWelcomeMessage 0 = some s ∧ s ∈ Frontend.WELCOME_LINES) ∧
    Frontend.getWelcomeMessage 1000 = Frontend.getWelcomeMessage 2000 := by
  constructor
  · exact (welcomeMessage_in_bounds_and_daily_stable 0 0 0).1
  · exact (welcomeMessage_in_bounds_and_daily_stable 0 1000 2000).2.2 rfl

/-- Helper: running count of a cons cell. -/
theorem runningCount_cons (j : Core.Job) (l : List Core.Job) :
    Core.runningCount (j :: l) =
      Core.runningCount l + (if j.status = Core.Status.running then 1 else 0) := by
  by_cases h : j.status = Core.Status.running <;>
    simp [Core.runningCount, List.filter_cons, h]

/-- Helper: running count over an appended list. -/
theorem runningCount_append (l₁ l₂ : List Core.Job) :
    Core.runningCount (l₁ ++ l₂) = Core.runningCount l₁ + Core.runningCount l₂ := by
  simp [Core.runningCount, List.filter_append]

/-- Helper: updating one status to anything other than running never
increases the running count. -/
theorem runningCount_setStatusById_le (l : List Core.Job) (id : String) (st : Core.Status)
    (hst : st ≠ Core.Status.running) :
    Core.runningCount (Core.setStatusById l id st) ≤ Core.runningCount l := by
  induction l with
  | nil => simp [Core.setStatusById]
  | cons j rest ih =>
      simp only [Core.setStatusById]
      split
      · rw [runningCount_cons, runningCount_cons]
        simp only [hst, if_false]
        split <;> omega
      · rw [runningCount_cons, runningCount_cons]
        omega

/-- Helper: updating one status increases the running count by at most one. -/
theorem runningCount_setStatusById_le_succ (l : List Core.Job) (id : String)
    (st : Core.Status) :
    Core.runningCount (Core.setStatusById l id st) ≤ Core.runningCount l + 1 := by
  induction l with
  | nil => simp [Core.setStatusById]
  | cons j rest ih =>
      simp only [Core.setStatusById]
      split
      · rw [runningCount_cons, runningCount_cons]
        split <;> split <;> omega
      · rw [runningCount_cons, runningCount_cons]
        omega

/-- Helper: guarded transitions preserve the concurrency field and, when
the destination is not running, never increase the running count. -/
theorem transition_bound (s : Core.SchedState) (id : String) (srcs : List Core.Status)
    (dst : Core.Status) (hdst : dst ≠ Core.Status.running) :
    (Core.transition s id srcs dst).1.concurrency = s.concurrency ∧
    Core.runningCount (Core.transition s id srcs dst).1.jobs ≤ Core.runningCount s.jobs := by
  cases hfind : Core.findJob s.jobs id with
  | none => simp [Core.transition, hfind]
  | some j =>
      by_cases hmem : j.status ∈ srcs
      · simp only [Core.transition, hfind, if_pos hmem]
        exact ⟨by trivial, runningCount_setStatusById_le _ _ _ hdst⟩
      · simp [Core.transition, hfind, hmem]

/-- Helper: cancel preserves the concurrency field and never increases the
running count. -/
theorem cancelJob_bound (s : Core.SchedState) (id : String) :
    (Core.cancelJob s id).1.concurrency = s.concurrency ∧
    Core.runningCount (Core.cancelJob s id).1.jobs ≤ Core.runningCount s.jobs := by
  cases hfind : Core.findJob s.jobs id with
  | none => simp [Core.cancelJob, hfind]
  | some j =>
      cases hst : j.status <;> simp [Core.cancelJob, hfind, hst] <;>
        exact runningCount_setStatusById_le _ _ _ (by intro h; cases h)

/-- Helper: rerun preserves the concurrency field and the running count. -/
theorem rerunJob_bound (s : Core.SchedState) (id freshId : String) (now : Nat) :
    (Core.rerunJob s id freshId now).1.concurrency = s.concurrency ∧
    Core.runningCount (Core.rerunJob s id freshId now).1.jobs ≤ Core.runningCount s.jobs := by
  cases hfind : Core.findJob s.jobs id with
  | none => simp [Core.rerunJob, hfind]
  | some j =>
      cases hst : j.status <;> cases hext : j.is_external <;>
        simp [Core.rerunJob, hfind, hst, hext, runningCount_append, Core.runningCount]

/-- Helper: enqueue preserves the concurrency field and the running count. -/
theorem enqueueJob_bound (s : Core.SchedState) (j : Core.Job) :
    (Core.enqueueJob s j).concurrency = s.concurrency ∧
    Core.runningCount (Core.enqueueJob s j).jobs ≤ Core.runningCount s.jobs := by
  cases hfind : Core.findJob s.jobs j.id with
  | some k => simp [Core.enqueueJob, hfind]
  | none =>
      by_cases hext : j.is_external && j.admin_approved_at = none <;>
        simp [Core.enqueueJob, hfind, hext, runningCount_append, Core.runningCount]

/-- Helper: admission keeps the running count within the concurrency limit
and preserves the concurrency field. -/
theorem admitNext_bound (s : Core.SchedState)
    (h : Core.runningCount s.jobs ≤ s.concurrency) :
    (Core.admitNext s).concurrency = s.concurrency ∧
    Core.runningCount (Core.admitNext s).jobs ≤ s.concurrency := by
  by_cases hlt : Core.runningCount s.jobs < s.concurrency
  · cases hpick : Core.pickNext s.jobs with
    | none =>
        simp only [Core.admitNext, if_pos hlt, hpick]
        exact ⟨by trivial, h⟩
    | some j =>
        simp only [Core.admitNext, if_pos hlt, hpick]
        refine ⟨by trivial, ?_⟩
        have hle := runningCount_setStatusById_le_succ s.jobs j.id Core.Status.running
        omega
  · simp only [Core.admitNext, if_neg hlt]
    exact ⟨by trivial, h⟩

/-- Helper: one scheduler operation preserves the concurrency invariant. -/
theorem applyOp_bound (s : Core.SchedState) (op : Core.SchedOp)
    (h : Core.runningCount s.jobs ≤ s.concurrency) :
    (Core.applyOp s op).concurrency = s.concurrency ∧
    Core.runningCount (Core.applyOp s op).jobs ≤ s.concurrency := by
  cases op with
  | admitSlot => exact admitNext_bound s h
  | enqueue j =>
      have hb := enqueueJob_bound s j
      exact ⟨hb.1, le_trans hb.2 h⟩
  | pause id =>
      have hb := transition_bound s id [Core.Status.running] Core.Status.paused
        (by intro hc; cases hc)
      exact ⟨hb.1, le_trans hb.2 h⟩
  | resume id =>
      have hb := transition_bound s id [Core.Status.paused] Core.Status.queued
        (by intro hc; cases hc)
      exact ⟨hb.1, le_trans hb.2 h⟩
  | cancel id =>
      have hb := cancelJob_bound s id
      exact ⟨hb.1, le_trans hb.2 h⟩
  | complete id exitOk =>
      have hb := transition_bound s id [Core.Status.running]
        (if exitOk then Core.Status.succeeded else Core.Status.failed)
        (by cases exitOk <;> intro hc <;> cases hc)
      exact ⟨hb.1, le_trans hb.2 h⟩
  | approve id =>
      have hb := transition_bound s id [Core.Status.awaiting_approval] Core.Status.queued
        (by intro hc; cases hc)
      exact ⟨hb.1, le_trans hb.2 h⟩
  | rerun id freshId now =>
      have hb := rerunJob_bound s id freshId now
      exact ⟨hb.1, le_trans hb.2 h⟩

/-- Helper: operation sequences preserve the concurrency invariant. -/
theorem applyOps_bound (ops : List Core.SchedOp) (s : Core.SchedState)
    (h : Core.runningCount s.jobs ≤ s.concurrency) :
    (Core.applyOps s ops).concurrency = s.concurrency ∧
    Core.runningCount (Core.applyOps s ops).jobs ≤ s.concurrency := by
  induction ops generalizing s with
  | nil => exact ⟨rfl, h⟩
  | cons op rest ih =>
      have h1 := applyOp_bound s op h
      have h2 := ih (Core.applyOp s op) (h1.1 ▸ h1.2)
      exact ⟨h2.1.trans h1.1, h1.1 ▸ h2.2⟩

/-- C1: starting from an empty registry with concurrency limit C, any
sequence of scheduler operations keeps the number of running jobs at most
C, and admission is a no-op whenever the running jobs already fill the
limit: the scheduler admits a queued job only while fewer than C jobs are
running. -/
theorem scheduler_respects_concurrency_limit (C : Nat) (ops : List Core.SchedOp)
    (s : Core.SchedState) :
    Core.runningCount (Core.applyOps (Core.initState C) ops).jobs ≤ C ∧
    (s.concurrency ≤ Core.runningCount s.jobs → Core.admitNext s = s) := by
  constructor
  · have h := applyOps_bound ops (Core.initState C)
      (by simp [Core.initState, Core.runningCount])
    simpa [Core.initState] using h.2
  · intro hge
    unfold Core.admitNext
    rw [if_neg (by omega)]

/-- Witness for C1 at concrete inputs: a registry whose single job is
running at concurrency 1 admits nothing further. -/
theorem scheduler_respects_concurrency_limit_witness :
    Core.runningCount (Core.applyOps (Core.initState 2) []).jobs ≤ 2 ∧
    Core.admitNext { jobs := [Core.sampleJob "a" Core.Status.running 5 0], concurrency := 1 } =
      { jobs := [Core.sampleJob "a" Core.Status.running 5 0], concurrency := 1 } :=
  ⟨(scheduler_respects_concurrency_limit 2 [] (Core.initState 2)).1,
    (scheduler_respects_concurrency_limit 2 []
      { jobs := [Core.sampleJob "a" Core.Status.running 5 0], concurrency := 1 }).2
      (by decide)⟩

/-- Helper: looking up a job after a status update returns the job with
the updated status. -/
theorem findJob_setStatusById (l : List Core.Job) (id : String) (st : Core.Status) :
    Core.findJob (Core.setStatusById l id st) id =
      (Core.findJob l id).map (fun j => { j with status := st }) := by
  induction l with
  | nil => rfl
  | cons j rest ih =>
      by_cases hid : j.id = id
      · simp only [Core.setStatusById, if_pos hid]
        unfold Core.findJob
        rw [List.find?_cons_of_pos _ (by simp [hid]), List.find?_cons_of_pos _ (by simp [hid])]
        rfl
      · simp only [Core.setStatusById, if_neg hid]
        unfold Core.findJob
        rw [List.find?_cons_of_neg _ (by simp [hid]), List.find?_cons_of_neg _ (by simp [hid])]
        exact ih

/-- C2: cancel transitions to canceled exactly from queued, running and
paused; canceling a job already canceled or failed is a no-op with no
error; from any other state the registry is unchanged; and cancel is
idempotent: once a cancel reports ok, a second cancel returns the same
state with ok again. -/
theorem cancel_valid_states_and_idempotent (s : Core.SchedState) (id : String)
    (j : Core.Job) (hfind : Core.findJob s.jobs id = some j) :
    ((j.status = Core.Status.queued ∨ j.status = Core.Status.running ∨
        j.status = Core.Status.paused) →
        Core.cancelJob s id =
          ({ s with jobs := Core.setStatusById s.jobs id Core.Status.canceled },
            Core.OpResult.ok) ∧
        Core.findJob (Core.cancelJob s id).1.jobs id =
          some { j with status := Core.Status.canceled }) ∧
    ((j.status = Core.Status.canceled ∨ j.status = Core.Status.failed) →
        Core.cancelJob s id = (s, Core.OpResult.ok)) ∧
    (j.status ≠ Core.Status.queued → j.status ≠ Core.Status.running →
        j.status ≠ Core.Status.paused → (Core.cancelJob s id).1 = s) ∧
    ((Core.cancelJob s id).2 = Core.OpResult.ok →
        Core.cancelJob (Core.cancelJob s id).1 id =
          ((Core.cancelJob s id).1, Core.OpResult.ok)) := by
  have hupd : Core.findJob (Core.setStatusById s.jobs id Core.Status.canceled) id =
      some { j with status := Core.Status.canceled } := by
    rw [findJob_setStatusById, hfind]
    rfl
  refine ⟨?_, ?_, ?_, ?_⟩
  · intro hor
    obtain hst | hst | hst := hor <;>
      exact (by
        have hc : Core.cancelJob s id =
            ({ s with jobs := Core.setStatusById s.jobs id Core.Status.canceled },
              Core.OpResult.ok) := by
          simp [Core.cancelJob, hfind, hst]
        exact ⟨hc, by rw [hc]; exact hupd⟩)
  · intro hor
    obtain hst | hst := hor <;> simp [Core.cancelJob, hfind, hst]
  · cases hst : j.status with
    | queued => intro h1 _ _; exact absurd rfl h1
    | running => intro _ h2 _; exact absurd rfl h2
    | paused => intro _ _ h3; exact absurd rfl h3
    | succeeded => intro _ _ _; simp [Core.cancelJob, hfind, hst]
    | failed => intro _ _ _; simp [Core.cancelJob, hfind, hst]
    | canceled => intro _ _ _; simp [Core.cancelJob, hfind, hst]
    | awaiting_approval => intro _ _ _; simp [Core.cancelJob, hfind, hst]
  · cases hst : j.status with
    | queued =>
        intro _
        have hc : Core.cancelJob s id =
            ({ s with jobs := Core.setStatusById s.jobs id Core.Status.canceled },
              Core.OpResult.ok) := by
          simp [Core.cancelJob, hfind, hst]
        rw [hc]
        simp [Core.cancelJob, hupd]
    | running =>
        intro _
        have hc : Core.cancelJob s id =
            ({ s with jobs := Core.setStatusById s.jobs id Core.Status.canceled },
              Core.OpResult.ok) := by
          simp [Core.cancelJob, hfind, hst]
        rw [hc]
        simp [Core.cancelJob, hupd]
    | paused =>
        intro _
        have hc : Core.cancelJob s id =
            ({ s with jobs := Core.setStatusById s.jobs id Core.Status.canceled },
              Core.OpResult.ok) := by
          simp [Core.cancelJob, hfind, hst]
        rw [hc]
        simp [Core.cancelJob, hupd]
    | canceled =>
        intro _
        have hc : Core.cancelJob s id = (s, Core.OpResult.ok) := by
          simp [Core.cancelJob, hfind, hst]
        rw [hc]
        exact hc
    | failed =>
        intro _
        have hc : Core.cancelJob s id = (s, Core.OpResult.ok) := by
          simp [Core.cancelJob, hfind, hst]
        rw [hc]
        exact hc
    | succeeded =>
        intro hok
        have : (Core.cancelJob s id).2 = Core.OpResult.invalidTransition := by
          simp [Core.cancelJob, hfind, hst]
        rw [this] at hok
        cases hok
    | awaiting_approval =>
        intro hok
        have : (Core.cancelJob s id).2 = Core.OpResult.invalidTransition := by
          simp [Core.cancelJob, hfind, hst]
        rw [this] at hok
        cases hok

/-- Witness for C2 at a concrete input: canceling a running job twice
gives the same state and ok the second time. -/
theorem cancel_valid_states_and_idempotent_witness :
    Core.cancelJob
        (Core.cancelJob
          { jobs := [Core.sampleJob "j1" Core.Status.running 5 0], concurrency := 2 }
          "j1").1 "j1" =
      ((Core.cancelJob
          { jobs := [Core.sampleJob "j1" Core.Status.running 5 0], concurrency := 2 }
          "j1").1,
        Core.OpResult.ok) :=
  (cancel_valid_states_and_idempotent
      { jobs := [Core.sampleJob "j1" Core.Status.running 5 0], concurrency := 2 }
      "j1" (Core.sampleJob "j1" Core.Status.running 5 0) (by decide)).2.2.2 (by decide)

/-- C3: from any terminal state, rerun appends a brand-new job that clones
module, parameters and aggressiveness, carries the fresh id and fresh
timestamps, and leaves every existing job untouched; the clone re-enters
through the Safety Gate, so it starts queued unless it is external without
admin approval, in which case it is held in awaiting_approval; from a
non-terminal state the registry is unchanged and the call is rejected; and
the Jobs page offers the Rerun button exactly for the terminal statuses. -/
theorem rerun_clones_into_fresh_job (s : Core.SchedState) (id freshId : String)
    (now : Nat) (j : Core.Job) (hfind : Core.findJob s.jobs id = some j) :
    ((j.status = Core.Status.succeeded ∨ j.status = Core.Status.failed ∨
        j.status = Core.Status.canceled) →
        ∃ newJob : Core.Job,
          Core.rerunJob s id freshId now =
            ({ s with jobs := s.jobs ++ [newJob] }, Core.OpResult.ok) ∧
          newJob.id = freshId ∧
          newJob.module = j.module ∧
          newJob.parameters = j.parameters ∧
          newJob.aggressiveness = j.aggressiveness ∧
          newJob.created_at = now ∧
          newJob.started_at = none ∧
          newJob.finished_at = none ∧
          newJob.admin_approved_at = none ∧
          newJob.status =
            (if j.is_external then Core.Status.awaiting_approval
              else Core.Status.queued) ∧
          ((∀ k ∈ s.jobs, k.id ≠ freshId) → ∀ k ∈ s.jobs, k.id ≠ newJob.id)) ∧
    (j.status ≠ Core.Status.succeeded → j.status ≠ Core.Status.failed →
        j.status ≠ Core.Status.canceled →
        Core.rerunJob s id freshId now = (s, Core.OpResult.invalidTransition)) ∧
    (∀ st : Core.Status,
        Frontend.showsRerunButton (Core.statusStr st) = true ↔
          (st = Core.Status.succeeded ∨ st = Core.Status.failed ∨
            st = Core.Status.canceled)) := by
  refine ⟨?_, ?_, ?_⟩
  · intro hor
    obtain hst | hst | hst := hor <;>
      exact ⟨{ id := freshId
             , project_id := j.project_id
             , module := j.module
             , status :=
                if j.is_external then Core.Status.awaiting_approval
                else Core.Status.queued
             , priority := j.priority
             , aggressiveness := j.aggressiveness
             , is_external := j.is_external
             , admin_approved_at := none
             , created_at := now
             , started_at := none
             , finished_at := none
             , exit_code := none
             , error_message := none
             , parameters := j.parameters },
        by simp [Core.rerunJob, hfind, hst], rfl, rfl, rfl, rfl, rfl, rfl, rfl, rfl, rfl,
        fun hfr => hfr⟩
  · cases hst : j.status with
    | succeeded => intro h1 _ _; exact absurd rfl h1
    | failed => intro _ h2 _; exact absurd rfl h2
    | canceled => intro _ _ h3; exact absurd rfl h3
    | queued => intro _ _ _; simp [Core.rerunJob, hfind, hst]
    | running => intro _ _ _; simp [Core.rerunJob, hfind, hst]
    | paused => intro _ _ _; simp [Core.rerunJob, hfind, hst]
    | awaiting_approval => intro _ _ _; simp [Core.rerunJob, hfind, hst]
  · intro st
    cases st <;> decide

/-- Witness for C3 at a concrete input: rerunning a succeeded job reports
ok. -/
theorem rerun_clones_into_fresh_job_witness :
    (Core.rerunJob
      { jobs := [Core.sampleJob "j1" Core.Status.succeeded 5 0], concurrency := 2 }
      "j1" "j2" 10).2 = Core.OpResult.ok := by
  obtain ⟨newJob, hpair, -⟩ := (rerun_clones_into_fresh_job
      { jobs := [Core.sampleJob "j1" Core.Status.succeeded 5 0], concurrency := 2 }
      "j1" "j2" 10 (Core.sampleJob "j1" Core.Status.succeeded 5 0) (by decide)).1
      (Or.inl rfl)
  rw [hpair]

/-- C5: the Safety Gate rejects a request whose authorization_confirmed
flag is false with AuthorizationRequired and admits only confirmed
requests, and the wizard never issues POST /jobs unless the operator has
confirmed authorization, in which case the body carries the project id,
module, aggressiveness, targets and authorization_confirmed set to true. -/
theorem admission_requires_authorization :
    (∀ (req : Frontend.JobRequest) (rest : Frontend.JobRequest → Core.GateDecision),
        (req.authorization_confirmed = false →
          Core.admitGate req rest = Core.GateDecision.rejected "AuthorizationRequired") ∧
        (Core.admitGate req rest = Core.GateDecision.admitted →
          req.authorization_confirmed = true)) ∧
    (∀ (pid m : String) (a : Nat) (ts : List Frontend.Target),
        (∀ req, Frontend.runJob false pid m a ts ≠ Frontend.RunJobAction.issueJob req) ∧
        Frontend.runJob true pid m a ts =
          Frontend.RunJobAction.issueJob
            { project_id := pid
            , module := m
            , aggressiveness := a
            , targets := ts
            , authorization_confirmed := true }) := by
  constructor
  · intro req rest
    constructor
    · intro h
      simp [Core.admitGate, h]
    · intro h
      cases hc : req.authorization_confirmed with
      | true => rfl
      | false =>
          rw [Core.admitGate, if_neg (by simp [hc])] at h
          cases h
  · intro pid m a ts
    exact ⟨by simp [Frontend.runJob], rfl⟩

/-- Witness for C5 at concrete inputs. -/
theorem admission_requires_authorization_witness :
    Core.admitGate
        { project_id := "p", module := "osint", aggressiveness := 5, targets := []
        , authorization_confirmed := false }
        (fun _ => Core.GateDecision.admitted) =
      Core.GateDecision.rejected "AuthorizationRequired" ∧
    Frontend.runJob true "p" "osint" 5 [] =
      Frontend.RunJobAction.issueJob
        { project_id := "p", module := "osint", aggressiveness := 5, targets := []
        , authorization_confirmed := true } :=
  ⟨(admission_requires_authorization.1
      { project_id := "p", module := "osint", aggressiveness := 5, targets := []
      , authorization_confirmed := false }
      (fun _ => Core.GateDecision.admitted)).1 rfl,
    (admission_requires_authorization.2 "p" "osint" 5 []).2⟩

/-- Helper: Boolean queue-order test in propositional form. -/
theorem aheadOf_eq_true (a b : Core.Job) :
    Core.aheadOf a b = true ↔
      (b.priority < a.priority ∨
        (a.priority = b.priority ∧ a.created_at < b.created_at)) := by
  simp [Core.aheadOf, Bool.or_eq_true, Bool.and_eq_true, decide_eq_true_eq]

/-- Helper: negated queue-order test in propositional form. -/
theorem aheadOf_eq_false (a b : Core.Job) :
    Core.aheadOf a b = false ↔
      (a.priority < b.priority ∨
        (a.priority = b.priority ∧ b.created_at ≤ a.created_at)) := by
  rw [← Bool.not_eq_true, aheadOf_eq_true]
  constructor <;> intro h <;> omega

/-- Helper: no job is strictly ahead of itself. -/
theorem aheadOf_irrefl (a : Core.Job) : Core.aheadOf a a = false := by
  rw [aheadOf_eq_false]
  omega

/-- Helper: the complement of the queue order is transitive. -/
theorem aheadOf_false_trans (j a m : Core.Job)
    (h1 : Core.aheadOf j a = false) (h2 : Core.aheadOf a m = false) :
    Core.aheadOf j m = false := by
  rw [aheadOf_eq_false] at h1 h2 ⊢
  omega

/-- Helper: a job beaten by the kept candidate stays beaten by anything at
least as good as the kept candidate. -/
theorem aheadOf_false_of_true_of_false (j b m : Core.Job)
    (hjb : Core.aheadOf j b = true) (hjm : Core.aheadOf j m = false) :
    Core.aheadOf b m = false := by
  rw [aheadOf_eq_true] at hjb
  rw [aheadOf_eq_false] at hjm ⊢
  omega

/-- Helper: specification of the selection fold of pickNext, generalized
over the accumulator. -/
theorem pickNext_foldl_spec (jobs : List Core.Job) :
    ∀ (acc : Option Core.Job) (m : Core.Job),
      (∀ a, acc = some a → a.status = Core.Status.queued) →
      jobs.foldl
          (fun acc j =>
            if j.status = Core.Status.queued then
              match acc with
              | none => some j
              | some w => if Core.aheadOf j w then some j else some w
            else acc)
          acc = some m →
      m.status = Core.Status.queued ∧
      (m ∈ jobs ∨ acc = some m) ∧
      (∀ j ∈ jobs, j.status = Core.Status.queued → Core.aheadOf j m = false) ∧
      (∀ a, acc = some a → Core.aheadOf a m = false) := by
  induction jobs with
  | nil =>
      intro acc m hacc h
      rw [List.foldl_nil] at h
      refine ⟨hacc m h, Or.inr h, by simp, ?_⟩
      intro a ha
      rw [ha] at h
      cases Option.some.inj h
      exact aheadOf_irrefl _
  | cons j rest ih =>
      intro acc m hacc h
      rw [List.foldl_cons] at h
      by_cases hq : j.status = Core.Status.queued
      · cases hacc0 : acc with
        | none =>
            rw [hacc0] at h
            simp only [if_pos hq] at h
            obtain ⟨hm, hmem, hrest, hstep⟩ := ih (some j) m
              (by intro a ha; cases ha; exact hq) h
            refine ⟨hm, ?_, ?_, ?_⟩
            · rcases hmem with hmem | hmem
              · exact Or.inl (List.mem_cons_of_mem _ hmem)
              · cases hmem
                exact Or.inl (List.mem_cons_self _ _)
            · intro x hx hxq
              rcases List.mem_cons.mp hx with rfl | hx2
              · exact hstep x rfl
              · exact hrest x hx2 hxq
            · intro a ha
              cases ha
        | some b =>
            have hbq : b.status = Core.Status.queued := hacc b hacc0
            rw [hacc0] at h
            simp only [if_pos hq] at h
            by_cases hab : Core.aheadOf j b = true
            · rw [if_pos hab] at h
              obtain ⟨hm, hmem, hrest, hstep⟩ := ih (some j) m
                (by intro a ha; cases ha; exact hq) h
              have hjm : Core.aheadOf j m = false := hstep j rfl
              refine ⟨hm, ?_, ?_, ?_⟩
              · rcases hmem with hmem | hmem
                · exact Or.inl (List.mem_cons_of_mem _ hmem)
                · cases hmem
                  exact Or.inl (List.mem_cons_self _ _)
              · intro x hx hxq
                rcases List.mem_cons.mp hx with rfl | hx2
                · exact hjm
                · exact hrest x hx2 hxq
              · intro a ha
                cases Option.some.inj ha
                exact aheadOf_false_of_true_of_false j b m hab hjm
            · have hab2 : Core.aheadOf j b = false := by
                cases hv : Core.aheadOf j b
                · rfl
                · exact absurd hv hab
              rw [if_neg (by rw [hab2]; exact Bool.false_ne_true)] at h
              obtain ⟨hm, hmem, hrest, hstep⟩ := ih (some b) m
                (by intro a ha; cases ha; exact hbq) h
              have hbm : Core.aheadOf b m = false := hstep b rfl
              refine ⟨hm, ?_, ?_, ?_⟩
              · rcases hmem with hmem | hmem
                · exact Or.inl (List.mem_cons_of_mem _ hmem)
                · cases Option.some.inj hmem
                  exact Or.inr rfl
              · intro x hx hxq
                rcases List.mem_cons.mp hx with rfl | hx2
                · exact aheadOf_false_trans x b m hab2 hbm
                · exact hrest x hx2 hxq
              · intro a ha
                cases Option.some.inj ha
                exact hbm
      · rw [if_neg hq] at h
        obtain ⟨hm, hmem, hrest, hstep⟩ := ih acc m hacc h
        refine ⟨hm, ?_, ?_, hstep⟩
        · rcases hmem with hmem | hmem
          · exact Or.inl (List.mem_cons_of_mem _ hmem)
          · exact Or.inr hmem
        · intro x hx hxq
          rcases List.mem_cons.mp hx with rfl | hx2
          · exact absurd hxq hq
          · exact hrest x hx2 hxq

/-- Helper: the job selected by pickNext is a queued member of the registry
that no other queued job is strictly ahead of. -/
theorem pickNext_spec (jobs : List Core.Job) (m : Core.Job)
    (h : Core.pickNext jobs = some m) :
    m.status = Core.Status.queued ∧ m ∈ jobs ∧
    ∀ j ∈ jobs, j.status = Core.Status.queued → Core.aheadOf j m = false := by
  unfold Core.pickNext at h
  obtain ⟨h1, h2, h3, h4⟩ := pickNext_foldl_spec jobs none m (by intro a ha; cases ha) h
  refine ⟨h1, ?_, h3⟩
  rcases h2 with h2 | h2
  · exact h2
  · cases h2

/-- C6: among queued jobs the scheduler never starts a strictly
lower-priority job while a higher-priority one is queued, preserves
submission order among equal priorities, and admission sets exactly the
selected job running while a slot is free. -/
theorem scheduler_queue_discipline (jobs : List Core.Job) (a b : Core.Job)
    (ha : a ∈ jobs) (_hb : b ∈ jobs)
    (haq : a.status = Core.Status.queued) (_hbq : b.status = Core.Status.queued) :
    (b.priority < a.priority → Core.pickNext jobs ≠ some b) ∧
    (a.priority = b.priority → a.created_at < b.created_at →
        Core.pickNext jobs ≠ some b) ∧
    (∀ (s : Core.SchedState) (w : Core.Job), Core.pickNext s.jobs = some w →
        Core.runningCount s.jobs < s.concurrency →
        Core.admitNext s =
          { s with jobs := Core.setStatusById s.jobs w.id Core.Status.running }) := by
  refine ⟨?_, ?_, ?_⟩
  · intro hlt hpick
    obtain ⟨-, -, hmax⟩ := pickNext_spec jobs b hpick
    have hfalse := hmax a ha haq
    rw [aheadOf_eq_false] at hfalse
    omega
  · intro hpri hca hpick
    obtain ⟨-, -, hmax⟩ := pickNext_spec jobs b hpick
    have hfalse := hmax a ha haq
    rw [aheadOf_eq_false] at hfalse
    omega
  · intro s w hp hr
    unfold Core.admitNext
    rw [if_pos hr, hp]

/-- Witness for C6 at a concrete input: with a priority-5 job submitted
earlier and a priority-8 job submitted later, the priority-5 job is not the
one selected. -/
theorem scheduler_queue_discipline_witness :
    Core.pickNext
        [Core.sampleJob "a" Core.Status.queued 5 1, Core.sampleJob "b" Core.Status.queued 8 2] ≠
      some (Core.sampleJob "a" Core.Status.queued 5 1) :=
  (scheduler_queue_discipline
      [Core.sampleJob "a" Core.Status.queued 5 1, Core.sampleJob "b" Core.Status.queued 8 2]
      (Core.sampleJob "b" Core.Status.queued 8 2) (Core.sampleJob "a" Core.Status.queued 5 1)
      (by decide) (by decide) rfl rfl).1 (by decide)

/-- Helper: the any-test of ingest agrees with a positive key count. -/
theorem any_key_iff (fs : List Core.Finding) (k : Core.DedupKey) :
    (fs.any fun f => f.dedup_key = k) = true ↔ 0 < Core.countKey fs k := by
  unfold Core.countKey
  rw [← List.countP_eq_length_filter]
  simp [List.any_eq_true, List.countP_pos_iff]

/-- Helper: the upsert map of ingest does not change key counts. -/
theorem countKey_map_update (fs : List Core.Finding) (k : Core.DedupKey) (t : Nat) :
    Core.countKey
        (fs.map (fun f => if f.dedup_key = k then { f with last_seen_at := t } else f)) k =
      Core.countKey fs k := by
  unfold Core.countKey
  rw [← List.countP_eq_length_filter, ← List.countP_eq_length_filter, List.countP_map]
  congr 1
  funext f
  by_cases hk : f.dedup_key = k <;> simp [hk]

/-- Helper: the upsert map of ingest rewrites the looked-up Finding to the
version with the new last_seen_at. -/
theorem getKey_map_update (fs : List Core.Finding) (k : Core.DedupKey) (t : Nat)
    (f : Core.Finding) (h : Core.getKey fs k = some f) :
    Core.getKey
        (fs.map (fun x => if x.dedup_key = k then { x with last_seen_at := t } else x)) k =
      some { f with last_seen_at := t } := by
  induction fs with
  | nil => cases h
  | cons g rest ih =>
      by_cases hk : g.dedup_key = k
      · unfold Core.getKey at h ⊢
        rw [List.find?_cons_of_pos _ (by simp [hk])] at h
        cases Option.some.inj h
        rw [List.map_cons, List.find?_cons_of_pos _ (by simp [hk])]
        simp [if_pos hk]
      · unfold Core.getKey at h ⊢
        rw [List.find?_cons_of_neg _ (by simp [hk])] at h
        rw [List.map_cons, if_neg hk, List.find?_cons_of_neg _ (by simp [hk])]
        exact ih h

/-- Helper: key counts add over appended lists. -/
theorem countKey_append (l₁ l₂ : List Core.Finding) (k : Core.DedupKey) :
    Core.countKey (l₁ ++ l₂) k = Core.countKey l₁ k + Core.countKey l₂ k := by
  simp [Core.countKey, List.filter_append]

/-- Helper: looking up a key absent from the front list continues in the
appended tail. -/
theorem getKey_append_of_none (l₁ l₂ : List Core.Finding) (k : Core.DedupKey)
    (h : Core.countKey l₁ k = 0) :
    Core.getKey (l₁ ++ l₂) k = Core.getKey l₂ k := by
  induction l₁ with
  | nil => rfl
  | cons f rest ih =>
      have hk : ¬ f.dedup_key = k := by
        intro hk
        simp [Core.countKey, List.filter_cons, hk] at h
      have hr : Core.countKey rest k = 0 := by
        simp [Core.countKey, List.filter_cons, hk] at h
        simpa [Core.countKey] using h
      unfold Core.getKey
      rw [List.cons_append, List.find?_cons_of_neg _ (by simp [hk])]
      exact ih hr

/-- Helper: ingesting a run of records that all carry dedup key k into a
state holding exactly one Finding with that key keeps the count at one,
preserves first_seen_at and drives last_seen_at to the final ingestion
instant. -/
theorem ingestAll_upsert_run (k : Core.DedupKey) (batch : List (Core.NormalizedRecord × Nat)) :
    ∀ (fs : List Core.Finding) (f : Core.Finding),
      (∀ p ∈ batch, Core.dedupKey p.1 = k) →
      Core.countKey fs k = 1 →
      Core.getKey fs k = some f →
      Core.countKey (Core.ingestAll fs batch) k = 1 ∧
      ∃ g, Core.getKey (Core.ingestAll fs batch) k = some g ∧
        g.first_seen_at = f.first_seen_at ∧
        g.last_seen_at = List.foldl (fun _ t => t) f.last_seen_at (batch.map Prod.snd) := by
  induction batch with
  | nil =>
      intro fs f _ hc hg
      exact ⟨hc, f, hg, rfl, rfl⟩
  | cons p rest ih =>
      intro fs f hkeys hc hg
      have hpk : Core.dedupKey p.1 = k := hkeys p (List.mem_cons_self _ _)
      have hany : (fs.any fun x => x.dedup_key = Core.dedupKey p.1) = true := by
        rw [hpk, any_key_iff]
        omega
      have hstep : Core.ingest fs p.1 p.2 =
          fs.map (fun x =>
            if x.dedup_key = Core.dedupKey p.1 then { x with last_seen_at := p.2 } else x) := by
        simp [Core.ingest, hany]
      rw [hpk] at hstep
      have hfold : Core.ingestAll fs (p :: rest) =
          Core.ingestAll (Core.ingest fs p.1 p.2) rest := by
        unfold Core.ingestAll
        rw [List.foldl_cons]
      have hc2 : Core.countKey (Core.ingest fs p.1 p.2) k = 1 := by
        rw [hstep, countKey_map_update, hc]
      have hg2 : Core.getKey (Core.ingest fs p.1 p.2) k =
          some { f with last_seen_at := p.2 } := by
        rw [hstep]
        exact getKey_map_update fs k p.2 f hg
      obtain ⟨hcount, g, hget, hfirst, hlast⟩ :=
        ih (Core.ingest fs p.1 p.2) { f with last_seen_at := p.2 }
          (fun q hq => hkeys q (List.mem_cons_of_mem _ hq)) hc2 hg2
      rw [hfold]
      refine ⟨hcount, g, hget, hfirst, ?_⟩
      rw [hlast]
      rw [List.map_cons, List.foldl_cons]

/-- Helper: the running last element of a nonempty time list is a member. -/
theorem foldl_last_mem (l : List Nat) (a : Nat) :
    List.foldl (fun _ t => t) a l ∈ a :: l := by
  induction l generalizing a with
  | nil => simp
  | cons b rest ih =>
      rw [List.foldl_cons]
      have h := ih b
      simp [List.mem_cons] at h ⊢
      tauto

/-- Helper: in a nondecreasing time list every element is bounded by the
final element. -/
theorem chain_le_foldl_last (l : List Nat) (a : Nat)
    (h : List.Chain' (fun x y => x ≤ y) (a :: l)) :
    ∀ u ∈ a :: l, u ≤ List.foldl (fun _ t => t) a l := by
  induction l generalizing a with
  | nil =>
      intro u hu
      simp at hu
      subst hu
      simp
  | cons b rest ih =>
      intro u hu
      rw [List.foldl_cons]
      have hab : a ≤ b := (List.chain'_cons.mp h).1
      have h2 : List.Chain' (fun x y => x ≤ y) (b :: rest) := (List.chain'_cons.mp h).2
      rcases List.mem_cons.mp hu with rfl | hu2
      · exact le_trans hab (ih b h2 b (List.mem_cons_self _ _))
      · exact ih b h2 u hu2

/-- Helper: in a nondecreasing time list the head bounds every element from
below. -/
theorem chain_head_le (l : List Nat) (a : Nat)
    (h : List.Chain' (fun x y => x ≤ y) (a :: l)) :
    ∀ u ∈ a :: l, a ≤ u := by
  induction l generalizing a with
  | nil =>
      intro u hu
      simp at hu
      subst hu
      exact le_refl _
  | cons b rest ih =>
      intro u hu
      have hab : a ≤ b := (List.chain'_cons.mp h).1
      have h2 : List.Chain' (fun x y => x ≤ y) (b :: rest) := (List.chain'_cons.mp h).2
      rcases List.mem_cons.mp hu with rfl | hu2
      · exact le_refl u
      · exact le_trans hab (ih b h2 u hu2)

/-- C4: ingesting any nonempty run of normalized records that share one
dedup key (with nondecreasing ingestion instants, as produced by any real
sequence of job runs) into a project holding no Finding with that key
yields exactly one Finding, whose first_seen_at is the earliest observation
instant and whose last_seen_at is the latest. -/
theorem findings_dedup_to_single_finding (k : Core.DedupKey) (fs : List Core.Finding)
    (r₀ : Core.NormalizedRecord) (t₀ : Nat) (batch : List (Core.NormalizedRecord × Nat))
    (h0 : Core.countKey fs k = 0)
    (hkeys : ∀ p ∈ (r₀, t₀) :: batch, Core.dedupKey p.1 = k)
    (hchain : List.Chain' (fun a b => a ≤ b) (((r₀, t₀) :: batch).map Prod.snd)) :
    Core.countKey (Core.ingestAll fs ((r₀, t₀) :: batch)) k = 1 ∧
    ∃ g, Core.getKey (Core.ingestAll fs ((r₀, t₀) :: batch)) k = some g ∧
      g.first_seen_at ∈ ((r₀, t₀) :: batch).map Prod.snd ∧
      g.last_seen_at ∈ ((r₀, t₀) :: batch).map Prod.snd ∧
      ∀ u ∈ ((r₀, t₀) :: batch).map Prod.snd,
        g.first_seen_at ≤ u ∧ u ≤ g.last_seen_at := by
  have hk0 : Core.dedupKey r₀ = k := hkeys (r₀, t₀) (List.mem_cons_self _ _)
  have hany : (fs.any fun x => x.dedup_key = Core.dedupKey r₀) = false := by
    cases hv : fs.any fun x => x.dedup_key = Core.dedupKey r₀
    · rfl
    · rw [any_key_iff, hk0] at hv
      omega
  have hcreate : Core.ingest fs r₀ t₀ =
      fs ++ [{ dedup_key := Core.dedupKey r₀, first_seen_at := t₀, last_seen_at := t₀ }] := by
    simp [Core.ingest, hany]
  have hc1 : Core.countKey (Core.ingest fs r₀ t₀) k = 1 := by
    rw [hcreate, countKey_append, h0, hk0]
    simp [Core.countKey, List.filter_cons]
  have hg1 : Core.getKey (Core.ingest fs r₀ t₀) k =
      some { dedup_key := k, first_seen_at := t₀, last_seen_at := t₀ } := by
    rw [hcreate, getKey_append_of_none _ _ _ h0, hk0]
    unfold Core.getKey
    rw [List.find?_cons_of_pos _ (by simp)]
  have hfold : Core.ingestAll fs ((r₀, t₀) :: batch) =
      Core.ingestAll (Core.ingest fs r₀ t₀) batch := by
    unfold Core.ingestAll
    rw [List.foldl_cons]
  obtain ⟨hcount, g, hget, hfirst, hlast⟩ :=
    ingestAll_upsert_run k batch (Core.ingest fs r₀ t₀)
      { dedup_key := k, first_seen_at := t₀, last_seen_at := t₀ }
      (fun q hq => hkeys q (List.mem_cons_of_mem _ hq)) hc1 hg1
  rw [hfold]
  have htimes : ((r₀, t₀) :: batch).map Prod.snd = t₀ :: batch.map Prod.snd := rfl
  refine ⟨hcount, g, hget, ?_, ?_, ?_⟩
  · rw [hfirst, htimes]
    exact List.mem_cons_self _ _
  · rw [hlast, htimes]
    exact foldl_last_mem _ _
  · intro u hu
    rw [htimes] at hu hchain
    constructor
    · rw [hfirst]
      exact chain_head_le _ _ hchain u hu
    · rw [hlast]
      exact chain_le_foldl_last _ _ hchain u hu

/-- Witness for C4 at a concrete input: two observations of the same
record at instants 3 and 5 collapse to a single Finding. -/
theorem findings_dedup_to_single_finding_witness :
    Core.countKey
        (Core.ingestAll []
          [({ project_id := "p", module := "m", finding_type := "t", normalized_value := "v" }, 3),
           ({ project_id := "p", module := "m", finding_type := "t", normalized_value := "v" }, 5)])
        { project_id := "p", module := "m", finding_type := "t", normalized_value := "v" } = 1 :=
  (findings_dedup_to_single_finding
      { project_id := "p", module := "m", finding_type := "t", normalized_value := "v" }
      []
      { project_id := "p", module := "m", finding_type := "t", normalized_value := "v" } 3
      [({ project_id := "p", module := "m", finding_type := "t", normalized_value := "v" }, 5)]
      rfl (by decide)
      (List.Chain.cons (by omega) List.Chain.nil)).1
